import Mathlib

/-
Verification of the StableIndexVector container (src/index_vector.hpp).

The container siv::vector keeps three parallel tables:
  m_data     : the dense store of live element values;
  m_metadata : one (rid, generation) entry per slot, never shrunk;
  m_indexes  : the indirection table from stable identifier to dense
               position, never shrunk.
All identifiers and generations are uint64 in the source; sequence
lengths are bounded by addressable memory, so identifier and position
arithmetic never reaches 2^64 and is modelled on Nat. Reads that would
be out of range are undefined behaviour in C++; they are modelled
totally with List.getD, and every theorem about a mutating operation is
stated under the preconditions the source asserts.
-/

namespace SIV

/-- Entry of the slot metadata table: the struct metadata of the source,
holding the stable id owning the slot (rid) and the generation counter. -/
structure Metadata where
  rid : Nat
  generation : Nat
deriving Repr, DecidableEq

/-- State of one siv::vector instance: the three parallel tables. -/
structure State (T : Type) where
  m_data : List T
  m_metadata : List Metadata
  m_indexes : List Nat
deriving Repr

/-- Default-constructed vector: all three tables empty. -/
def init (T : Type) : State T := ⟨[], [], []⟩

/-- Read of m_metadata at a position, total model of the C++ indexing. -/
def State.md {T : Type} (s : State T) (p : Nat) : Metadata :=
  s.m_metadata.getD p ⟨0, 0⟩

/-- Read of m_indexes at an identifier, total model of the C++ indexing. -/
def State.idx {T : Type} (s : State T) (i : Nat) : Nat :=
  s.m_indexes.getD i 0

/-- Model of std::swap between two positions of one sequence. The source
only swaps in-range positions; out of range is left as the identity. -/
def listSwap {α : Type} (l : List α) (i j : Nat) : List α :=
  match l[i]?, l[j]? with
  | some a, some b => (l.set i b).set j a
  | _, _ => l

/-- Body of vector::get_free_id. Recycles the topmost hole when the
metadata table is longer than the data table (bumping its generation),
otherwise mints a fresh identifier and appends to metadata and indexes. -/
def get_free_id {T : Type} (s : State T) : Nat × State T :=
  if s.m_data.length < s.m_metadata.length then
    let p := s.m_data.length
    let m := s.md p
    (m.rid, { s with m_metadata := s.m_metadata.set p ⟨m.rid, m.generation + 1⟩ })
  else
    let new_id := s.m_data.length
    (new_id, { s with
                m_metadata := s.m_metadata ++ [⟨new_id, 0⟩],
                m_indexes := s.m_indexes ++ [new_id] })

/-- Body of vector::get_free_slot: take a free id and point its
indirection entry at the next dense position. -/
def get_free_slot {T : Type} (s : State T) : Nat × State T :=
  let r := get_free_id s
  (r.1, { r.2 with m_indexes := r.2.m_indexes.set r.1 s.m_data.length })

/-- Body of vector::push_back (and emplace_back, which differs only in
how the value is constructed): allocate a slot, append the value. -/
def push_back {T : Type} (s : State T) (v : T) : Nat × State T :=
  let r := get_free_slot s
  (r.1, { r.2 with m_data := r.2.m_data ++ [v] })

/-- Body of vector::erase(id). All reads precede all writes in the
source; the generation bump at data_idx happens before the metadata
swap, and the data pop_back comes last. -/
def erase {T : Type} (s : State T) (id : Nat) : State T :=
  let data_idx := s.idx id
  let last_data_idx := s.m_data.length - 1
  let last_id := (s.md last_data_idx).rid
  let bumped := s.m_metadata.set data_idx
      ⟨(s.md data_idx).rid, (s.md data_idx).generation + 1⟩
  { m_data := (listSwap s.m_data data_idx last_data_idx).dropLast,
    m_metadata := listSwap bumped data_idx last_data_idx,
    m_indexes := listSwap s.m_indexes id last_id }

/-- Body of vector::erase_at: erase through the reverse id of the slot. -/
def erase_at {T : Type} (s : State T) (i : Nat) : State T :=
  erase s (s.md i).rid

/-- Body of vector::pop_back: erase at the last data position. -/
def pop_back {T : Type} (s : State T) : State T :=
  erase_at s (s.m_data.length - 1)

/-- Body of vector::clear: drop the data, bump every generation; the
metadata and indexes tables keep their sizes. -/
def clear {T : Type} (s : State T) : State T :=
  { s with
    m_data := [],
    m_metadata := s.m_metadata.map fun m => ⟨m.rid, m.generation + 1⟩ }

/-- Loop of vector::erase_if: scan forward, erase at the current index
when the predicate holds (and re-examine the same index), else advance. -/
def erase_if_go {T : Type} (p : T → Bool) (s : State T) (i : Nat) : State T :=
  if h : i < s.m_data.length then
    if p (s.m_data.get ⟨i, h⟩) then erase_if_go p (erase_at s i) i
    else erase_if_go p s (i + 1)
  else s
termination_by s.m_data.length - i
decreasing_by
  · have hsw : ∀ (l : List T) (a b : Nat), (listSwap l a b).length = l.length := by
      intro l a b
      unfold listSwap
      cases h1 : l[a]? <;> cases h2 : l[b]? <;> simp
    have hlen : (erase_at s i).m_data.length = s.m_data.length - 1 := by
      unfold erase_at erase
      simp [hsw]
    omega
  · omega

/-- Body of the member vector::erase_if. -/
def erase_if {T : Type} (s : State T) (p : T → Bool) : State T :=
  erase_if_go p s 0

/-- Body of the free function siv::erase_if, returning the removal count
as old size minus new size. -/
def erase_if_count {T : Type} (s : State T) (p : T → Bool) : State T × Nat :=
  let old_size := s.m_data.length
  let s2 := erase_if s p
  (s2, old_size - s2.m_data.length)

/-- Body of vector::contains. -/
def contains {T : Type} (s : State T) (id : Nat) : Bool :=
  decide (id < s.m_indexes.length) && decide (s.idx id < s.m_data.length)

/-- Body of vector::index_of. -/
def index_of {T : Type} (s : State T) (id : Nat) : Nat :=
  s.idx id

/-- Body of vector::is_valid(id, generation). -/
def is_valid {T : Type} (s : State T) (id gen : Nat) : Bool :=
  if s.m_indexes.length ≤ id ∨ s.m_metadata.length ≤ s.idx id then false
  else decide (gen = (s.md (s.idx id)).generation)

/-- Body of vector::generation(id). -/
def generation {T : Type} (s : State T) (id : Nat) : Nat :=
  (s.md (s.idx id)).generation

/-- Body of vector::next_id. -/
def next_id {T : Type} (s : State T) : Nat :=
  if s.m_data.length < s.m_metadata.length then (s.md s.m_data.length).rid
  else s.m_data.length

/-- Body of vector::size. -/
def size {T : Type} (s : State T) : Nat :=
  s.m_data.length

/-- Element access by stable id: the read m_data[m_indexes[id]] shared
by operator[] and (after its range check) by at. -/
def lookup {T : Type} (s : State T) (id : Nat) : Option T :=
  s.m_data[s.idx id]?

/-- Handle as built by vector::make_handle: the id together with the
generation observed at creation time. The container back pointer is the
single container under study, so validity of a handle h at a state s is
is_valid s h.fst h.snd, exactly handle::valid. -/
def make_handle {T : Type} (s : State T) (id : Nat) : Nat × Nat :=
  (id, (s.md (s.idx id)).generation)

/-- Shorthand for the reverse id stored at the last data position, the
last_id read at the start of vector::erase. -/
def tail_id {T : Type} (s : State T) : Nat :=
  (s.md (s.m_data.length - 1)).rid

/-- An identifier is live when some position of the dense store is owned
by it, that is, some slot of the live region carries it as reverse id. -/
def live {T : Type} (s : State T) (id : Nat) : Prop :=
  ∃ p, p < s.m_data.length ∧ (s.md p).rid = id

/-- Structural invariant tying the three tables together: the metadata
and indirection tables have equal length and at least the data length,
the reverse ids of all slots point back through the indirection table,
and every minted identifier points at the slot carrying it. -/
def Inv {T : Type} (s : State T) : Prop :=
  s.m_indexes.length = s.m_metadata.length ∧
  s.m_data.length ≤ s.m_metadata.length ∧
  (∀ p, p < s.m_metadata.length →
    (s.md p).rid < s.m_indexes.length ∧ s.idx ((s.md p).rid) = p) ∧
  (∀ i, i < s.m_indexes.length →
    s.idx i < s.m_metadata.length ∧ (s.md (s.idx i)).rid = i)

/-- Public mutating operations of the container. -/
inductive Op (T : Type) where
  | push : T → Op T
  | erase : Nat → Op T
  | eraseAt : Nat → Op T
  | popBack : Op T
  | eraseIf : (T → Bool) → Op T
  | clear : Op T

/-- One public operation. The mutators that assert a precondition in the
source (erase, erase_at, pop_back) are applied only when that asserted
precondition holds, since violating it is undefined behaviour. -/
def step {T : Type} (s : State T) : Op T → State T
  | .push v => (push_back s v).2
  | .erase id => if contains s id then erase s id else s
  | .eraseAt i => if i < s.m_data.length then erase_at s i else s
  | .popBack => if 0 < s.m_data.length then pop_back s else s
  | .eraseIf p => erase_if s p
  | .clear => clear s

/-- Run a sequence of public operations from a state. -/
def run {T : Type} (ops : List (Op T)) (s : State T) : State T :=
  ops.foldl step s

/-- Model of push_back in which the allocations that grow the tables may
fail. The flags idx_ok, md_ok and data_ok say whether the allocation
attempted while growing the respective table succeeds: the reserve calls
on m_indexes and m_metadata made on the fresh-mint path of get_free_id,
and the growth inside m_data.push_back, in the order the source makes
them. The recycle path grows neither m_indexes nor m_metadata, so only
data_ok matters there. On failure the exception propagates out of
push_back and the error value carries the state the container is left
in. -/
def push_back_alloc {T : Type} (s : State T) (v : T)
    (idx_ok md_ok data_ok : Bool) : Except (State T) (Nat × State T) :=
  if s.m_data.length < s.m_metadata.length then
    let p := s.m_data.length
    let m := s.md p
    let s1 : State T :=
      { s with m_metadata := s.m_metadata.set p ⟨m.rid, m.generation + 1⟩ }
    let s2 : State T :=
      { s1 with m_indexes := s1.m_indexes.set m.rid s.m_data.length }
    if data_ok then Except.ok (m.rid, { s2 with m_data := s2.m_data ++ [v] })
    else Except.error s2
  else if idx_ok = false then Except.error s
  else if md_ok = false then Except.error s
  else
    let new_id := s.m_data.length
    let s1 : State T :=
      { s with m_metadata := s.m_metadata ++ [⟨new_id, 0⟩],
               m_indexes := s.m_indexes ++ [new_id] }
    let s2 : State T :=
      { s1 with m_indexes := s1.m_indexes.set new_id s.m_data.length }
    if data_ok then Except.ok (new_id, { s2 with m_data := s2.m_data ++ [v] })
    else Except.error s2

/-- Concrete scenario of the spec: the container after pushing the
values 10, 20 and 30 into a default-constructed vector. -/
def demo3 : State Nat :=
  (push_back (push_back (push_back (init Nat) 10).2 20).2 30).2

/-- Handle to identifier 0 created before the erase of the scenario. -/
def demoHandle : Nat × Nat := make_handle demo3 0

/-- Scenario state after erase(0). -/
def demoErased : State Nat := erase demo3 0

/-- Scenario insertion of a fourth value after the erase. -/
def demoPush : Nat × State Nat := push_back demoErased 40

/-- State reached by pushing three values, erasing identifier 0 and
pushing a fourth value; used to exhibit generation behaviour at a fixed
metadata position. -/
def genDemo : State Nat :=
  run [Op.push 1, Op.push 2, Op.push 3, Op.erase 0, Op.push 4] (init Nat)

/-- One-element container used by the allocation failure theorems. -/
def allocDemo : State Nat := (push_back (init Nat) 7).2

/-- Whether a fallible push ended in an exception. -/
def isErr {T : Type} (r : Except (State T) (Nat × State T)) : Bool :=
  match r with
  | Except.error _ => true
  | Except.ok _ => false

/-- State carried by the exception, or the fallback when none. -/
def errState {T : Type} (r : Except (State T) (Nat × State T))
    (dflt : State T) : State T :=
  match r with
  | Except.error s => s
  | Except.ok _ => dflt

theorem getD_eq_getElem {α : Type} (l : List α) (i : Nat) (d : α) (h : i < l.length) :
    l.getD i d = l[i] := by
  simp [List.getD_eq_getElem?_getD, List.getElem?_eq_getElem h]

theorem getD_of_le {α : Type} (l : List α) (i : Nat) (d : α) (h : l.length ≤ i) :
    l.getD i d = d := by
  simp [List.getD_eq_getElem?_getD, List.getElem?_eq_none h]

theorem getD_set_same {α : Type} (l : List α) (i : Nat) (a d : α) (h : i < l.length) :
    (l.set i a).getD i d = a := by
  simp [List.getD_eq_getElem?_getD, List.getElem?_set_self h]

theorem getD_set_other {α : Type} (l : List α) (i j : Nat) (a d : α) (h : i ≠ j) :
    (l.set i a).getD j d = l.getD j d := by
  simp [List.getD_eq_getElem?_getD, List.getElem?_set_ne h]

theorem getD_append_left {α : Type} (l1 l2 : List α) (i : Nat) (d : α)
    (h : i < l1.length) :
    (l1 ++ l2).getD i d = l1.getD i d := by
  simp [List.getD_eq_getElem?_getD, List.getElem?_append_left h]

theorem getD_append_len {α : Type} (l : List α) (a d : α) :
    (l ++ [a]).getD l.length d = a := by
  simp [List.getD_eq_getElem?_getD, List.getElem?_append_right (Nat.le_refl _)]

theorem listSwap_length {α : Type} (l : List α) (i j : Nat) :
    (listSwap l i j).length = l.length := by
  unfold listSwap
  cases h1 : l[i]? <;> cases h2 : l[j]? <;> simp

theorem listSwap_of_lt {α : Type} (l : List α) (i j : Nat)
    (hi : i < l.length) (hj : j < l.length) :
    listSwap l i j = (l.set i l[j]).set j l[i] := by
  unfold listSwap
  rw [List.getElem?_eq_getElem hi, List.getElem?_eq_getElem hj]

theorem listSwap_getElem?_fst {α : Type} (l : List α) (i j : Nat)
    (hi : i < l.length) (hj : j < l.length) :
    (listSwap l i j)[i]? = l[j]? := by
  rw [listSwap_of_lt l i j hi hj, List.getElem?_eq_getElem hj]
  by_cases hij : i = j
  · subst hij
    exact List.getElem?_set_self (by simpa using hi)
  · rw [List.getElem?_set_ne (Ne.symm hij), List.getElem?_set_self hi]

theorem listSwap_getElem?_snd {α : Type} (l : List α) (i j : Nat)
    (hi : i < l.length) (hj : j < l.length) :
    (listSwap l i j)[j]? = l[i]? := by
  rw [listSwap_of_lt l i j hi hj, List.getElem?_eq_getElem hi]
  exact List.getElem?_set_self (by simpa using hj)

theorem listSwap_getElem?_other {α : Type} (l : List α) (i j k : Nat)
    (hk1 : k ≠ i) (hk2 : k ≠ j) :
    (listSwap l i j)[k]? = l[k]? := by
  unfold listSwap
  cases h1 : l[i]? <;> cases h2 : l[j]?
  · rfl
  · rfl
  · rfl
  · rw [List.getElem?_set_ne (Ne.symm hk2), List.getElem?_set_ne (Ne.symm hk1)]

theorem listSwap_getD_fst {α : Type} (l : List α) (i j : Nat) (d : α)
    (hi : i < l.length) (hj : j < l.length) :
    (listSwap l i j).getD i d = l.getD j d := by
  simp [List.getD_eq_getElem?_getD, listSwap_getElem?_fst l i j hi hj]

theorem listSwap_getD_snd {α : Type} (l : List α) (i j : Nat) (d : α)
    (hi : i < l.length) (hj : j < l.length) :
    (listSwap l i j).getD j d = l.getD i d := by
  simp [List.getD_eq_getElem?_getD, listSwap_getElem?_snd l i j hi hj]

theorem listSwap_getD_other {α : Type} (l : List α) (i j k : Nat) (d : α)
    (hk1 : k ≠ i) (hk2 : k ≠ j) :
    (listSwap l i j).getD k d = l.getD k d := by
  simp [List.getD_eq_getElem?_getD, listSwap_getElem?_other l i j k hk1 hk2]

theorem getD_map_bump (l : List Metadata) (i : Nat) (h : i < l.length) :
    (l.map fun m => (⟨m.rid, m.generation + 1⟩ : Metadata)).getD i ⟨0, 0⟩
      = ⟨(l.getD i ⟨0, 0⟩).rid, (l.getD i ⟨0, 0⟩).generation + 1⟩ := by
  rw [getD_eq_getElem _ _ _ (by simpa using h), getD_eq_getElem _ _ _ h]
  simp

theorem push_back_recycle {T : Type} (s : State T) (v : T)
    (h : s.m_data.length < s.m_metadata.length) :
    push_back s v =
      ((s.md s.m_data.length).rid,
       { m_data := s.m_data ++ [v],
         m_metadata := s.m_metadata.set s.m_data.length
           ⟨(s.md s.m_data.length).rid, (s.md s.m_data.length).generation + 1⟩,
         m_indexes := s.m_indexes.set (s.md s.m_data.length).rid s.m_data.length }) := by
  unfold push_back get_free_slot get_free_id
  simp [h]

theorem push_back_mint {T : Type} (s : State T) (v : T)
    (h : ¬ s.m_data.length < s.m_metadata.length) :
    push_back s v =
      (s.m_data.length,
       { m_data := s.m_data ++ [v],
         m_metadata := s.m_metadata ++ [⟨s.m_data.length, 0⟩],
         m_indexes := (s.m_indexes ++ [s.m_data.length]).set s.m_data.length
           s.m_data.length }) := by
  unfold push_back get_free_slot get_free_id
  simp [h]

theorem erase_eq {T : Type} (s : State T) (id : Nat) :
    erase s id =
      { m_data := (listSwap s.m_data (s.idx id) (s.m_data.length - 1)).dropLast,
        m_metadata := listSwap
          (s.m_metadata.set (s.idx id)
            ⟨(s.md (s.idx id)).rid, (s.md (s.idx id)).generation + 1⟩)
          (s.idx id) (s.m_data.length - 1),
        m_indexes := listSwap s.m_indexes id (tail_id s) } := by
  unfold erase tail_id
  rfl

theorem erase_m_data_length {T : Type} (s : State T) (id : Nat) :
    (erase s id).m_data.length = s.m_data.length - 1 := by
  rw [erase_eq]
  simp [listSwap_length]

theorem erase_m_metadata_length {T : Type} (s : State T) (id : Nat) :
    (erase s id).m_metadata.length = s.m_metadata.length := by
  rw [erase_eq]
  simp [listSwap_length]

theorem erase_m_indexes_length {T : Type} (s : State T) (id : Nat) :
    (erase s id).m_indexes.length = s.m_indexes.length := by
  rw [erase_eq]
  simp [listSwap_length]

theorem erase_at_m_data_length {T : Type} (s : State T) (i : Nat) :
    (erase_at s i).m_data.length = s.m_data.length - 1 := by
  unfold erase_at
  exact erase_m_data_length s _

theorem contains_iff {T : Type} (s : State T) (id : Nat) :
    contains s id = true ↔
      id < s.m_indexes.length ∧ s.idx id < s.m_data.length := by
  simp [contains]

theorem Inv.len_eq {T : Type} {s : State T} (h : Inv s) :
    s.m_indexes.length = s.m_metadata.length := h.1

theorem Inv.data_le {T : Type} {s : State T} (h : Inv s) :
    s.m_data.length ≤ s.m_metadata.length := h.2.1

theorem Inv.rid_lt {T : Type} {s : State T} (h : Inv s) {p : Nat}
    (hp : p < s.m_metadata.length) : (s.md p).rid < s.m_indexes.length :=
  (h.2.2.1 p hp).1

theorem Inv.idx_rid {T : Type} {s : State T} (h : Inv s) {p : Nat}
    (hp : p < s.m_metadata.length) : s.idx ((s.md p).rid) = p :=
  (h.2.2.1 p hp).2

theorem Inv.idx_lt {T : Type} {s : State T} (h : Inv s) {i : Nat}
    (hi : i < s.m_indexes.length) : s.idx i < s.m_metadata.length :=
  (h.2.2.2 i hi).1

theorem Inv.rid_idx {T : Type} {s : State T} (h : Inv s) {i : Nat}
    (hi : i < s.m_indexes.length) : (s.md (s.idx i)).rid = i :=
  (h.2.2.2 i hi).2

theorem tail_id_lt {T : Type} {s : State T} (hInv : Inv s)
    (hn : 0 < s.m_data.length) : tail_id s < s.m_indexes.length :=
  hInv.rid_lt (by have := hInv.data_le; omega)

theorem idx_tail_id {T : Type} {s : State T} (hInv : Inv s)
    (hn : 0 < s.m_data.length) : s.idx (tail_id s) = s.m_data.length - 1 :=
  hInv.idx_rid (by have := hInv.data_le; omega)

theorem erase_idx_self {T : Type} {s : State T} {id : Nat} (hInv : Inv s)
    (hid : id < s.m_indexes.length) (hlive : s.idx id < s.m_data.length) :
    (erase s id).idx id = s.m_data.length - 1 := by
  rw [erase_eq]
  simp only [State.idx]
  rw [listSwap_getD_fst _ _ _ _ hid (tail_id_lt hInv (by omega))]
  exact idx_tail_id hInv (by omega)

theorem erase_idx_tail {T : Type} {s : State T} {id : Nat} (hInv : Inv s)
    (hid : id < s.m_indexes.length) (hlive : s.idx id < s.m_data.length) :
    (erase s id).idx (tail_id s) = s.idx id := by
  rw [erase_eq]
  simp only [State.idx]
  rw [listSwap_getD_snd _ _ _ _ hid (tail_id_lt hInv (by omega))]

theorem erase_idx_other {T : Type} {s : State T} {id j : Nat}
    (h1 : j ≠ id) (h2 : j ≠ tail_id s) :
    (erase s id).idx j = s.idx j := by
  rw [erase_eq]
  simp only [State.idx]
  rw [listSwap_getD_other _ _ _ _ _ h1 h2]

theorem erase_md_last {T : Type} {s : State T} {id : Nat} (hInv : Inv s)
    (hid : id < s.m_indexes.length) (hlive : s.idx id < s.m_data.length) :
    (erase s id).md (s.m_data.length - 1) =
      ⟨id, (s.md (s.idx id)).generation + 1⟩ := by
  have hdi : s.idx id < s.m_metadata.length := hInv.idx_lt hid
  have hla : s.m_data.length - 1 < s.m_metadata.length := by
    have := hInv.data_le; omega
  rw [erase_eq]
  simp only [State.md]
  rw [listSwap_getD_snd _ _ _ _ (by simpa using hdi) (by simpa using hla)]
  have h := hInv.rid_idx hid
  simp only [State.md] at h
  rw [getD_set_same _ _ _ _ hdi, h]

theorem erase_md_victim {T : Type} {s : State T} {id : Nat} (hInv : Inv s)
    (hid : id < s.m_indexes.length) (hlive : s.idx id < s.m_data.length)
    (hnt : s.idx id ≠ s.m_data.length - 1) :
    (erase s id).md (s.idx id) = s.md (s.m_data.length - 1) := by
  have hdi : s.idx id < s.m_metadata.length := hInv.idx_lt hid
  have hla : s.m_data.length - 1 < s.m_metadata.length := by
    have := hInv.data_le; omega
  rw [erase_eq]
  simp only [State.md]
  rw [listSwap_getD_fst _ _ _ _ (by simpa using hdi) (by simpa using hla)]
  rw [getD_set_other _ _ _ _ _ hnt]

theorem erase_md_other {T : Type} {s : State T} {id p : Nat}
    (h1 : p ≠ s.idx id) (h2 : p ≠ s.m_data.length - 1) :
    (erase s id).md p = s.md p := by
  rw [erase_eq]
  simp only [State.md]
  rw [listSwap_getD_other _ _ _ _ _ h1 h2, getD_set_other _ _ _ _ _ (Ne.symm h1)]

theorem erase_data_victim {T : Type} {s : State T} {id : Nat}
    (hlive : s.idx id < s.m_data.length)
    (hnt : s.idx id ≠ s.m_data.length - 1) :
    (erase s id).m_data[s.idx id]? = s.m_data[s.m_data.length - 1]? := by
  rw [erase_eq]
  simp only
  rw [List.getElem?_dropLast, if_pos (by rw [listSwap_length]; omega)]
  exact listSwap_getElem?_fst _ _ _ hlive (by omega)

theorem erase_data_other {T : Type} {s : State T} {id p : Nat}
    (h1 : p ≠ s.idx id) (hp : p < s.m_data.length - 1) :
    (erase s id).m_data[p]? = s.m_data[p]? := by
  rw [erase_eq]
  simp only
  rw [List.getElem?_dropLast, if_pos (by rw [listSwap_length]; omega)]
  exact listSwap_getElem?_other _ _ _ _ h1 (by omega)

theorem getD_append_at {α : Type} (l : List α) (a d : α) (i : Nat)
    (h : i = l.length) : (l ++ [a]).getD i d = a := by
  subst h
  exact getD_append_len l a d

theorem Inv_init (T : Type) : Inv (init T) := by
  refine ⟨rfl, by simp [init], ?_, ?_⟩ <;>
    · intro x hx
      simp [init] at hx

theorem Inv_push {T : Type} (s : State T) (v : T) (h : Inv s) :
    Inv (push_back s v).2 := by
  obtain ⟨h1, h2, h3, h4⟩ := h
  by_cases hrec : s.m_data.length < s.m_metadata.length
  · have hr1 := (h3 _ hrec).1
    have hr2 := (h3 _ hrec).2
    rw [push_back_recycle s v hrec]
    simp only [State.md, State.idx] at hr1 hr2 h3 h4
    simp only [Inv, State.md, State.idx, List.length_set, List.length_append,
      List.length_singleton]
    refine ⟨h1, by omega, ?_, ?_⟩
    · intro p hp
      by_cases hpn : p = s.m_data.length
      · subst hpn
        rw [getD_set_same _ _ _ _ hrec]
        exact ⟨hr1, by rw [getD_set_same _ _ _ _ hr1]⟩
      · rw [getD_set_other _ _ _ _ _ (Ne.symm hpn)]
        have hp3 := h3 p hp
        have hne : (s.m_metadata.getD p ⟨0, 0⟩).rid ≠
            (s.m_metadata.getD s.m_data.length ⟨0, 0⟩).rid := by
          intro he
          have : s.m_indexes.getD (s.m_metadata.getD p ⟨0, 0⟩).rid 0 =
              s.m_indexes.getD (s.m_metadata.getD s.m_data.length ⟨0, 0⟩).rid 0 := by
            rw [he]
          rw [hp3.2, hr2] at this
          exact hpn this
        refine ⟨hp3.1, ?_⟩
        rw [getD_set_other _ _ _ _ _ (Ne.symm hne)]
        exact hp3.2
    · intro i hi
      by_cases hir : i = (s.m_metadata.getD s.m_data.length ⟨0, 0⟩).rid
      · subst hir
        rw [getD_set_same _ _ _ _ hr1]
        exact ⟨hrec, by rw [getD_set_same _ _ _ _ hrec]⟩
      · rw [getD_set_other _ _ _ _ _ (fun he => hir he.symm)]
        have hi4 := h4 i hi
        have hne : s.m_indexes.getD i 0 ≠ s.m_data.length := by
          intro he
          have : (s.m_metadata.getD (s.m_indexes.getD i 0) ⟨0, 0⟩).rid =
              (s.m_metadata.getD s.m_data.length ⟨0, 0⟩).rid := by
            rw [he]
          rw [hi4.2] at this
          exact hir this
        refine ⟨hi4.1, ?_⟩
        rw [getD_set_other _ _ _ _ _ (Ne.symm hne)]
        exact hi4.2
  · have hlen : s.m_data.length = s.m_metadata.length :=
      Nat.le_antisymm h2 (Nat.not_lt.mp hrec)
    have hidxlen : s.m_indexes.length = s.m_data.length := by omega
    rw [push_back_mint s v hrec]
    simp only [State.md, State.idx] at h3 h4
    simp only [Inv, State.md, State.idx, List.length_set, List.length_append,
      List.length_singleton]
    refine ⟨by omega, by omega, ?_, ?_⟩
    · intro p hp
      by_cases hpn : p = s.m_data.length
      · subst hpn
        rw [getD_append_at _ _ _ _ hlen]
        refine ⟨by show s.m_data.length < s.m_indexes.length + 1; omega, ?_⟩
        rw [getD_set_same _ _ _ _ (by simp; omega)]
      · have hp' : p < s.m_metadata.length := by omega
        rw [getD_append_left _ _ _ _ hp']
        have hp3 := h3 p hp'
        have hrlt : (s.m_metadata.getD p ⟨0, 0⟩).rid < s.m_indexes.length := hp3.1
        refine ⟨by omega, ?_⟩
        rw [getD_set_other _ _ _ _ _ (by omega)]
        rw [getD_append_left _ _ _ _ hrlt]
        exact hp3.2
    · intro i hi
      by_cases hin : i = s.m_data.length
      · subst hin
        rw [getD_set_same _ _ _ _ (by simp; omega)]
        refine ⟨by omega, ?_⟩
        rw [getD_append_at _ _ _ _ hlen]
      · have hi' : i < s.m_indexes.length := by omega
        rw [getD_set_other _ _ _ _ _ (fun he => hin he.symm)]
        rw [getD_append_left _ _ _ _ hi']
        have hi4 := h4 i hi'
        refine ⟨by omega, ?_⟩
        rw [getD_append_left _ _ _ _ hi4.1]
        exact hi4.2

theorem Inv_erase {T : Type} {s : State T} {id : Nat} (hInv : Inv s)
    (hid : id < s.m_indexes.length) (hlive : s.idx id < s.m_data.length) :
    Inv (erase s id) := by
  have h1 := hInv.len_eq
  have h2 := hInv.data_le
  have hn : 0 < s.m_data.length := by omega
  have hdi : s.idx id < s.m_metadata.length := hInv.idx_lt hid
  have hla : s.m_data.length - 1 < s.m_metadata.length := by omega
  have hlid_lt : tail_id s < s.m_indexes.length := tail_id_lt hInv hn
  have hidx_lid : s.idx (tail_id s) = s.m_data.length - 1 := idx_tail_id hInv hn
  have hrid_di : (s.md (s.idx id)).rid = id := hInv.rid_idx hid
  refine ⟨?_, ?_, ?_, ?_⟩
  · rw [erase_m_indexes_length, erase_m_metadata_length]
    exact h1
  · rw [erase_m_data_length, erase_m_metadata_length]
    omega
  · intro p hp
    rw [erase_m_metadata_length] at hp
    rw [erase_m_indexes_length]
    by_cases hpla : p = s.m_data.length - 1
    · subst hpla
      rw [erase_md_last hInv hid hlive]
      exact ⟨hid, erase_idx_self hInv hid hlive⟩
    · by_cases hpdi : p = s.idx id
      · subst hpdi
        rw [erase_md_victim hInv hid hlive hpla]
        exact ⟨hlid_lt, erase_idx_tail hInv hid hlive⟩
      · rw [erase_md_other hpdi hpla]
        have hp3rid := hInv.rid_lt hp
        have hp3idx := hInv.idx_rid hp
        refine ⟨hp3rid, ?_⟩
        have hne1 : (s.md p).rid ≠ id := by
          intro he
          have : s.idx ((s.md p).rid) = s.idx id := by rw [he]
          rw [hp3idx] at this
          exact hpdi this
        have hne2 : (s.md p).rid ≠ tail_id s := by
          intro he
          have : s.idx ((s.md p).rid) = s.idx (tail_id s) := by rw [he]
          rw [hp3idx, hidx_lid] at this
          exact hpla this
        rw [erase_idx_other hne1 hne2]
        exact hp3idx
  · intro i hi
    rw [erase_m_indexes_length] at hi
    rw [erase_m_metadata_length]
    by_cases hii : i = id
    · subst hii
      rw [erase_idx_self hInv hid hlive]
      refine ⟨hla, ?_⟩
      rw [erase_md_last hInv hid hlive]
    · by_cases hil : i = tail_id s
      · subst hil
        rw [erase_idx_tail hInv hid hlive]
        refine ⟨hdi, ?_⟩
        have hdila : s.idx id ≠ s.m_data.length - 1 := by
          intro he
          apply hii
          show tail_id s = id
          unfold tail_id
          rw [← he]
          exact hrid_di
        rw [erase_md_victim hInv hid hlive hdila]
        rfl
      · rw [erase_idx_other hii hil]
        have hi4lt := hInv.idx_lt hi
        have hi4rid := hInv.rid_idx hi
        refine ⟨hi4lt, ?_⟩
        have hne1 : s.idx i ≠ s.idx id := by
          intro he
          apply hii
          rw [← hi4rid, he]
          exact hrid_di
        have hne2 : s.idx i ≠ s.m_data.length - 1 := by
          intro he
          apply hil
          rw [← hi4rid, he]
          rfl
        rw [erase_md_other hne1 hne2]
        exact hi4rid

theorem Inv_clear {T : Type} {s : State T} (hInv : Inv s) : Inv (clear s) := by
  obtain ⟨h1, h2, h3, h4⟩ := hInv
  refine ⟨?_, ?_, ?_, ?_⟩
  · simpa [clear] using h1
  · simp [clear]
  · intro p hp
    simp only [clear, List.length_map] at hp
    have hb := getD_map_bump s.m_metadata p hp
    simp only [clear, State.md, State.idx] at *
    rw [hb]
    exact h3 p hp
  · intro i hi
    simp only [clear] at hi
    have h4i := h4 i hi
    simp only [clear, State.md, State.idx] at *
    have hb := getD_map_bump s.m_metadata _ h4i.1
    rw [hb]
    simpa using h4i

theorem Inv_erase_at {T : Type} {s : State T} (hInv : Inv s) {i : Nat}
    (hi : i < s.m_data.length) : Inv (erase_at s i) := by
  have hmd : i < s.m_metadata.length := Nat.lt_of_lt_of_le hi hInv.data_le
  have hr1 : (s.md i).rid < s.m_indexes.length := hInv.rid_lt hmd
  have hr2 : s.idx ((s.md i).rid) = i := hInv.idx_rid hmd
  unfold erase_at
  exact Inv_erase hInv hr1 (by rw [hr2]; exact hi)

theorem Inv_erase_if_go {T : Type} (p : T → Bool) (fuel : Nat) :
    ∀ (s : State T) (i : Nat), s.m_data.length - i ≤ fuel → Inv s →
      Inv (erase_if_go p s i) := by
  induction fuel with
  | zero =>
    intro s i hf hInvS
    rw [erase_if_go]
    split
    · omega
    · exact hInvS
  | succ k ih =>
    intro s i hf hInvS
    rw [erase_if_go]
    split
    · split
      · refine ih _ _ ?_ (Inv_erase_at hInvS (by omega))
        rw [erase_at_m_data_length]
        omega
      · exact ih _ _ (by omega) hInvS
    · exact hInvS

theorem Inv_erase_if {T : Type} {s : State T} (hInv : Inv s) (p : T → Bool) :
    Inv (erase_if s p) :=
  Inv_erase_if_go p s.m_data.length s 0 (by omega) hInv

theorem Inv_step {T : Type} (s : State T) (op : Op T) (h : Inv s) :
    Inv (step s op) := by
  cases op with
  | push v => exact Inv_push s v h
  | erase id =>
    simp only [step]
    split
    · next hc =>
      obtain ⟨hid, hlive⟩ := (contains_iff s id).mp hc
      exact Inv_erase h hid hlive
    · exact h
  | eraseAt i =>
    simp only [step]
    split
    · next hi => exact Inv_erase_at h hi
    · exact h
  | popBack =>
    simp only [step]
    split
    · next hn =>
      unfold pop_back
      exact Inv_erase_at h (by omega)
    · exact h
  | eraseIf p => exact Inv_erase_if h p
  | clear => exact Inv_clear h

theorem Inv_run {T : Type} (ops : List (Op T)) (s : State T) (h : Inv s) :
    Inv (run ops s) := by
  induction ops generalizing s with
  | nil => exact h
  | cons op rest ih => exact ih (step s op) (Inv_step s op h)

theorem generation_erase_self {T : Type} {s : State T} {id : Nat} (hInv : Inv s)
    (hid : id < s.m_indexes.length) (hlive : s.idx id < s.m_data.length) :
    generation (erase s id) id = generation s id + 1 := by
  unfold generation
  rw [erase_idx_self hInv hid hlive, erase_md_last hInv hid hlive]

theorem generation_erase_other {T : Type} {s : State T} {j id : Nat} (hInv : Inv s)
    (hj : j < s.m_indexes.length) (hjlive : s.idx j < s.m_data.length)
    (hid : id < s.m_indexes.length) (hne : id ≠ j) :
    generation (erase s j) id = generation s id := by
  unfold generation
  by_cases hit : id = tail_id s
  · subst hit
    have hjla : s.idx j ≠ s.m_data.length - 1 := by
      intro he
      have hr := hInv.rid_idx hj
      rw [he] at hr
      exact hne hr
    rw [erase_idx_tail hInv hj hjlive, erase_md_victim hInv hj hjlive hjla,
      idx_tail_id hInv (by omega)]
  · have h1 : id ≠ j := hne
    rw [erase_idx_other h1 hit]
    have hd1 : s.idx id ≠ s.idx j := by
      intro he
      have ha := hInv.rid_idx hid
      have hb := hInv.rid_idx hj
      rw [he] at ha
      rw [ha] at hb
      exact hne hb
    have hd2 : s.idx id ≠ s.m_data.length - 1 := by
      intro he
      have ha := hInv.rid_idx hid
      rw [he] at ha
      exact hit ha.symm
    rw [erase_md_other hd1 hd2]

theorem generation_le_erase {T : Type} {s : State T} {j id : Nat} (hInv : Inv s)
    (hj : j < s.m_indexes.length) (hjlive : s.idx j < s.m_data.length)
    (hid : id < s.m_indexes.length) :
    generation s id ≤ generation (erase s j) id := by
  by_cases he : id = j
  · subst he
    rw [generation_erase_self hInv hid hjlive]
    omega
  · rw [generation_erase_other hInv hj hjlive hid he]

theorem generation_le_erase_at {T : Type} {s : State T} {i id : Nat} (hInv : Inv s)
    (hi : i < s.m_data.length) (hid : id < s.m_indexes.length) :
    generation s id ≤ generation (erase_at s i) id := by
  have hmd : i < s.m_metadata.length := Nat.lt_of_lt_of_le hi hInv.data_le
  unfold erase_at
  exact generation_le_erase hInv (hInv.rid_lt hmd)
    (by rw [hInv.idx_rid hmd]; exact hi) hid

theorem generation_clear {T : Type} {s : State T} {id : Nat} (hInv : Inv s)
    (hid : id < s.m_indexes.length) :
    generation (clear s) id = generation s id + 1 := by
  have hlt := hInv.idx_lt hid
  simp only [State.idx] at hlt
  unfold generation
  simp only [clear, State.md, State.idx]
  rw [getD_map_bump _ _ hlt]

theorem generation_push_self {T : Type} {s : State T} {v : T} {id : Nat}
    (hInv : Inv s) (hid : id < s.m_indexes.length)
    (heq : (push_back s v).1 = id) :
    generation (push_back s v).2 id = generation s id + 1 ∧
      contains (push_back s v).2 id = true := by
  have h1 := hInv.len_eq
  have h2 := hInv.data_le
  by_cases hrec : s.m_data.length < s.m_metadata.length
  · have hr1 : (s.md s.m_data.length).rid < s.m_indexes.length := hInv.rid_lt hrec
    have hr2 : s.idx ((s.md s.m_data.length).rid) = s.m_data.length :=
      hInv.idx_rid hrec
    rw [push_back_recycle s v hrec] at heq ⊢
    simp only at heq
    simp only [State.md, State.idx] at heq hr1 hr2
    constructor
    · unfold generation
      simp only [State.md, State.idx]
      rw [← heq, getD_set_same _ _ _ _ hr1, getD_set_same _ _ _ _ hrec, hr2]
    · rw [contains_iff]
      simp only [State.md, State.idx]
      rw [← heq, getD_set_same _ _ _ _ hr1]
      simp only [List.length_set, List.length_append, List.length_singleton]
      exact ⟨hr1, by omega⟩
  · rw [push_back_mint s v hrec] at heq
    simp only at heq
    have hlen : s.m_data.length = s.m_metadata.length :=
      Nat.le_antisymm h2 (Nat.not_lt.mp hrec)
    exfalso
    omega

theorem generation_push_other {T : Type} {s : State T} {v : T} {id : Nat}
    (hInv : Inv s) (hid : id < s.m_indexes.length)
    (hne : (push_back s v).1 ≠ id) :
    generation (push_back s v).2 id = generation s id := by
  have h1 := hInv.len_eq
  have h2 := hInv.data_le
  by_cases hrec : s.m_data.length < s.m_metadata.length
  · have hr1 : (s.md s.m_data.length).rid < s.m_indexes.length := hInv.rid_lt hrec
    have hr2 : s.idx ((s.md s.m_data.length).rid) = s.m_data.length :=
      hInv.idx_rid hrec
    rw [push_back_recycle s v hrec] at hne ⊢
    simp only at hne
    simp only [State.md, State.idx] at hne hr1 hr2
    have hidx : s.m_indexes.getD id 0 ≠ s.m_data.length := by
      intro he
      have ha := hInv.rid_idx hid
      simp only [State.md, State.idx] at ha
      rw [he] at ha
      exact hne ha
    unfold generation
    simp only [State.md, State.idx]
    rw [getD_set_other _ _ _ _ _ hne,
      getD_set_other _ _ _ _ _ (fun he => hidx he.symm)]
  · have hlen : s.m_data.length = s.m_metadata.length :=
      Nat.le_antisymm h2 (Nat.not_lt.mp hrec)
    rw [push_back_mint s v hrec]
    unfold generation
    simp only [State.md, State.idx]
    have hidn : id ≠ s.m_data.length := by omega
    have hidlt := hInv.idx_lt hid
    simp only [State.idx] at hidlt
    rw [getD_set_other _ _ _ _ _ (Ne.symm hidn),
      getD_append_left s.m_indexes [s.m_data.length] id 0 hid,
      getD_append_left s.m_metadata _ _ _ hidlt]

theorem erase_if_go_m_indexes_length {T : Type} (p : T → Bool) (fuel : Nat) :
    ∀ (s : State T) (i : Nat), s.m_data.length - i ≤ fuel →
      (erase_if_go p s i).m_indexes.length = s.m_indexes.length := by
  induction fuel with
  | zero =>
    intro s i hf
    rw [erase_if_go]
    split
    · omega
    · rfl
  | succ k ih =>
    intro s i hf
    rw [erase_if_go]
    split
    · split
      · rw [ih _ _ (by rw [erase_at_m_data_length]; omega)]
        unfold erase_at
        exact erase_m_indexes_length _ _
      · exact ih _ _ (by omega)
    · rfl

theorem m_indexes_length_le_step {T : Type} (s : State T) (op : Op T) :
    s.m_indexes.length ≤ (step s op).m_indexes.length := by
  cases op with
  | push v =>
    by_cases hrec : s.m_data.length < s.m_metadata.length
    · rw [step, push_back_recycle s v hrec]
      simp
    · rw [step, push_back_mint s v hrec]
      simp
  | erase id =>
    simp only [step]
    split
    · rw [erase_m_indexes_length]
    · exact Nat.le_refl _
  | eraseAt i =>
    simp only [step]
    split
    · unfold erase_at
      rw [erase_m_indexes_length]
    · exact Nat.le_refl _
  | popBack =>
    simp only [step]
    split
    · unfold pop_back erase_at
      rw [erase_m_indexes_length]
    · exact Nat.le_refl _
  | eraseIf p =>
    simp only [step]
    unfold erase_if
    rw [erase_if_go_m_indexes_length p s.m_data.length s 0 (by omega)]
  | clear =>
    simp only [step, clear]
    omega

theorem generation_le_erase_if_go {T : Type} (p : T → Bool) (fuel : Nat) :
    ∀ (s : State T) (i id : Nat), s.m_data.length - i ≤ fuel → Inv s →
      id < s.m_indexes.length →
      generation s id ≤ generation (erase_if_go p s i) id := by
  induction fuel with
  | zero =>
    intro s i id hf hInvS hid
    rw [erase_if_go]
    split
    · omega
    · exact Nat.le_refl _
  | succ k ih =>
    intro s i id hf hInvS hid
    rw [erase_if_go]
    split
    · next hlt =>
      split
      · refine Nat.le_trans (generation_le_erase_at hInvS hlt hid) ?_
        refine ih _ _ _ ?_ (Inv_erase_at hInvS hlt) ?_
        · rw [erase_at_m_data_length]
          omega
        · unfold erase_at
          rw [erase_m_indexes_length]
          exact hid
      · exact ih _ _ _ (by omega) hInvS hid
    · exact Nat.le_refl _

theorem generation_le_step {T : Type} (s : State T) (op : Op T) (id : Nat)
    (hInv : Inv s) (hid : id < s.m_indexes.length) :
    generation s id ≤ generation (step s op) id := by
  cases op with
  | push v =>
    by_cases heq : (push_back s v).1 = id
    · rw [step, (generation_push_self hInv hid heq).1]
      omega
    · rw [step, generation_push_other hInv hid heq]
  | erase j =>
    simp only [step]
    split
    · next hc =>
      obtain ⟨hj, hjlive⟩ := (contains_iff s j).mp hc
      exact generation_le_erase hInv hj hjlive hid
    · exact Nat.le_refl _
  | eraseAt i =>
    simp only [step]
    split
    · next hi => exact generation_le_erase_at hInv hi hid
    · exact Nat.le_refl _
  | popBack =>
    simp only [step]
    split
    · next hn =>
      unfold pop_back
      exact generation_le_erase_at hInv (by omega) hid
    · exact Nat.le_refl _
  | eraseIf p =>
    simp only [step]
    exact generation_le_erase_if_go p s.m_data.length s 0 id (by omega) hInv hid
  | clear =>
    rw [step, generation_clear hInv hid]
    omega

theorem generation_le_run {T : Type} (ops : List (Op T)) (s : State T) (id : Nat)
    (hInv : Inv s) (hid : id < s.m_indexes.length) :
    generation s id ≤ generation (run ops s) id ∧
      id < (run ops s).m_indexes.length := by
  induction ops generalizing s with
  | nil => exact ⟨Nat.le_refl _, hid⟩
  | cons op rest ih =>
    have hid2 : id < (step s op).m_indexes.length :=
      Nat.lt_of_lt_of_le hid (m_indexes_length_le_step s op)
    have := ih (step s op) (Inv_step s op hInv) hid2
    exact ⟨Nat.le_trans (generation_le_step s op id hInv hid) this.1, this.2⟩

theorem live_iff_of_Inv {T : Type} {s : State T} (hInv : Inv s) {id : Nat}
    (hid : id < s.m_indexes.length) :
    live s id ↔ s.idx id < s.m_data.length := by
  constructor
  · rintro ⟨p, hp, hrid⟩
    have h := hInv.idx_rid (Nat.lt_of_lt_of_le hp hInv.data_le)
    rw [hrid] at h
    rw [h]
    exact hp
  · intro h
    exact ⟨s.idx id, h, hInv.rid_idx hid⟩

theorem is_valid_eq_decide {T : Type} (t : State T) (id g : Nat)
    (hi : id < t.m_indexes.length) (hx : t.idx id < t.m_metadata.length) :
    is_valid t id g = decide (g = generation t id) := by
  unfold is_valid generation
  rw [if_neg (by omega)]

theorem lookup_push_fresh {T : Type} (s : State T) (v : T) (hInv : Inv s) :
    contains (push_back s v).2 (push_back s v).1 = true ∧
    lookup (push_back s v).2 (push_back s v).1 = some v := by
  have h1 := hInv.len_eq
  have h2 := hInv.data_le
  by_cases hrec : s.m_data.length < s.m_metadata.length
  · have hr1 : (s.md s.m_data.length).rid < s.m_indexes.length := hInv.rid_lt hrec
    rw [push_back_recycle s v hrec]
    simp only [contains_iff, lookup, State.md, State.idx]
    simp only [State.md, State.idx] at hr1
    rw [getD_set_same _ _ _ _ hr1]
    refine ⟨⟨by simpa using hr1,
      by simp only [List.length_append, List.length_singleton]; omega⟩, ?_⟩
    rw [List.getElem?_append_right (Nat.le_refl _)]
    simp
  · have hlen : s.m_data.length = s.m_metadata.length :=
      Nat.le_antisymm h2 (Nat.not_lt.mp hrec)
    rw [push_back_mint s v hrec]
    simp only [contains_iff, lookup, State.md, State.idx]
    rw [getD_set_same _ _ _ _ (by simp; omega)]
    refine ⟨⟨by simp only [List.length_set, List.length_append,
        List.length_singleton]; omega,
      by simp only [List.length_append, List.length_singleton]; omega⟩, ?_⟩
    rw [List.getElem?_append_right (Nat.le_refl _)]
    simp

theorem lookup_preserved_push {T : Type} (s : State T) (w : T) {id : Nat}
    (hInv : Inv s) (hc : contains s id = true) :
    contains (push_back s w).2 id = true ∧
    lookup (push_back s w).2 id = lookup s id := by
  obtain ⟨hid, hlive⟩ := (contains_iff s id).mp hc
  have h1 := hInv.len_eq
  have h2 := hInv.data_le
  by_cases hrec : s.m_data.length < s.m_metadata.length
  · have hr2 : s.idx ((s.md s.m_data.length).rid) = s.m_data.length :=
      hInv.idx_rid hrec
    have hne : (s.md s.m_data.length).rid ≠ id := by
      intro he
      rw [he] at hr2
      omega
    rw [push_back_recycle s w hrec]
    simp only [contains_iff, lookup, State.md, State.idx]
    simp only [State.md, State.idx] at hne
    rw [getD_set_other _ _ _ _ _ hne]
    have hlive' := hlive
    simp only [State.idx] at hlive'
    refine ⟨⟨by simp only [List.length_set]; omega,
      by simp only [List.length_append, List.length_singleton]; omega⟩, ?_⟩
    exact List.getElem?_append_left hlive'
  · have hlen : s.m_data.length = s.m_metadata.length :=
      Nat.le_antisymm h2 (Nat.not_lt.mp hrec)
    have hne : id ≠ s.m_data.length := by omega
    rw [push_back_mint s w hrec]
    simp only [contains_iff, lookup, State.md, State.idx]
    rw [getD_set_other _ _ _ _ _ (Ne.symm hne),
      getD_append_left s.m_indexes [s.m_data.length] id 0 hid]
    have hlive' := hlive
    simp only [State.idx] at hlive'
    refine ⟨⟨by simp only [List.length_set, List.length_append,
        List.length_singleton]; omega,
      by simp only [List.length_append, List.length_singleton]; omega⟩, ?_⟩
    exact List.getElem?_append_left hlive'

theorem lookup_preserved_erase {T : Type} (s : State T) {id j : Nat}
    (hInv : Inv s) (hc : contains s id = true) (hcj : contains s j = true)
    (hne : j ≠ id) :
    contains (erase s j) id = true ∧
    lookup (erase s j) id = lookup s id := by
  obtain ⟨hid, hlive⟩ := (contains_iff s id).mp hc
  obtain ⟨hj, hjlive⟩ := (contains_iff s j).mp hcj
  have hn : 0 < s.m_data.length := by omega
  by_cases hit : id = tail_id s
  · have hjla : s.idx j ≠ s.m_data.length - 1 := by
      intro he
      have hr := hInv.rid_idx hj
      rw [he] at hr
      rw [hit] at hne
      exact hne hr.symm
    have hidla : s.idx id = s.m_data.length - 1 := by
      rw [hit]
      exact idx_tail_id hInv hn
    have hidx_new : (erase s j).idx id = s.idx j := by
      rw [hit]
      exact erase_idx_tail hInv hj hjlive
    constructor
    · rw [contains_iff, erase_m_indexes_length, erase_m_data_length, hidx_new]
      exact ⟨hid, by omega⟩
    · unfold lookup
      rw [hidx_new, @erase_data_victim T s j hjlive hjla, hidla]
  · have hd1 : s.idx id ≠ s.idx j := by
      intro he
      have ha := hInv.rid_idx hid
      have hb := hInv.rid_idx hj
      rw [he] at ha
      rw [ha] at hb
      exact hne hb.symm
    have hd2 : s.idx id ≠ s.m_data.length - 1 := by
      intro he
      have ha := hInv.rid_idx hid
      rw [he] at ha
      exact hit ha.symm
    constructor
    · rw [contains_iff, erase_m_indexes_length, erase_m_data_length,
        erase_idx_other (Ne.symm hne) hit]
      exact ⟨hid, by omega⟩
    · unfold lookup
      rw [erase_idx_other (Ne.symm hne) hit]
      exact erase_data_other hd1 (by omega)

theorem lookup_run_other {T : Type} (ops : List (Op T)) (t : State T)
    (id : Nat) (v : T) (hInv : Inv t) (hc : contains t id = true)
    (hl : lookup t id = some v)
    (hops : ∀ op ∈ ops, (∃ w, op = Op.push w) ∨ ∃ j, j ≠ id ∧ op = Op.erase j) :
    contains (run ops t) id = true ∧ lookup (run ops t) id = some v := by
  induction ops generalizing t with
  | nil => exact ⟨hc, hl⟩
  | cons op rest ih =>
    have hop := hops op (List.mem_cons_self op rest)
    have hrest : ∀ o ∈ rest,
        (∃ w, o = Op.push w) ∨ ∃ j, j ≠ id ∧ o = Op.erase j :=
      fun o ho => hops o (List.mem_cons_of_mem op ho)
    have hrun : run (op :: rest) t = run rest (step t op) := rfl
    rw [hrun]
    rcases hop with ⟨w, rfl⟩ | ⟨j, hjne, rfl⟩
    · obtain ⟨hc1, hl1⟩ := lookup_preserved_push t w hInv hc
      exact ih (step t (Op.push w)) (Inv_step t (Op.push w) hInv) hc1
        (by rw [show step t (Op.push w) = (push_back t w).2 from rfl, hl1]; exact hl)
        hrest
    · by_cases hcj : contains t j = true
      · obtain ⟨hc1, hl1⟩ := lookup_preserved_erase t hInv hc hcj hjne
        have hstep : step t (Op.erase j) = erase t j := by
          simp only [step, hcj, if_pos]
        exact ih (step t (Op.erase j)) (Inv_step t (Op.erase j) hInv)
          (by rw [hstep]; exact hc1) (by rw [hstep, hl1]; exact hl) hrest
      · have hstep : step t (Op.erase j) = t := by
          simp only [step]
          rw [if_neg]
          simpa using hcj
        rw [hstep]
        exact ih t hInv hc hl hrest

theorem drop_getElem? {α : Type} :
    ∀ (l : List α) (i j : Nat), (l.drop i)[j]? = l[i + j]? := by
  intro l
  induction l with
  | nil =>
    intro i j
    simp
  | cons a l ih =>
    intro i j
    cases i with
    | zero => simp
    | succ i =>
      rw [List.drop_succ_cons, ih i j]
      have h : i + 1 + j = i + j + 1 := by omega
      rw [h, List.getElem?_cons_succ]

theorem erase_at_take {T : Type} {s : State T} (hInv : Inv s) {i : Nat}
    (hi : i < s.m_data.length) :
    (erase_at s i).m_data.take i = s.m_data.take i := by
  have hdi : s.idx ((s.md i).rid) = i :=
    hInv.idx_rid (Nat.lt_of_lt_of_le hi hInv.data_le)
  apply List.ext_getElem?
  intro k
  by_cases hk : k < i
  · rw [List.getElem?_take_of_lt hk, List.getElem?_take_of_lt hk]
    unfold erase_at
    apply erase_data_other
    · rw [hdi]
      omega
    · omega
  · have h1 : (s.m_data.take i).length ≤ k := by
      simp only [List.length_take]
      omega
    have h2 : (((erase_at s i).m_data).take i).length ≤ k := by
      simp only [List.length_take]
      omega
    rw [List.getElem?_eq_none h2, List.getElem?_eq_none h1]

theorem erase_at_drop_perm {T : Type} {s : State T} (hInv : Inv s) {i : Nat}
    (hi : i < s.m_data.length) :
    (s.m_data.drop i).Perm
      (s.m_data.get ⟨i, hi⟩ :: ((erase_at s i).m_data.drop i)) := by
  have hdi : s.idx ((s.md i).rid) = i :=
    hInv.idx_rid (Nat.lt_of_lt_of_le hi hInv.data_le)
  have hlen' : (erase_at s i).m_data.length = s.m_data.length - 1 :=
    erase_at_m_data_length s i
  by_cases hla : i = s.m_data.length - 1
  · have h1 : s.m_data.drop i = [s.m_data.get ⟨i, hi⟩] := by
      rw [List.drop_eq_getElem_cons hi, List.drop_eq_nil_of_le (by omega)]
      simp
    have h2 : (erase_at s i).m_data.drop i = [] :=
      List.drop_eq_nil_of_le (by omega)
    rw [h1, h2]
  · have hil : i < s.m_data.length - 1 := by omega
    have hlt2 : s.m_data.length - 1 < s.m_data.length := by omega
    have hkey : (erase_at s i).m_data.drop i =
        s.m_data.get ⟨s.m_data.length - 1, hlt2⟩ ::
          (s.m_data.drop (i + 1)).dropLast := by
      apply List.ext_getElem?
      intro k
      rw [drop_getElem?]
      cases k with
      | zero =>
        have hv : (erase_at s i).m_data[i]? = s.m_data[s.m_data.length - 1]? := by
          unfold erase_at
          have h := @erase_data_victim T s ((s.md i).rid)
            (by rw [hdi]; exact hi) (by rw [hdi]; exact hla)
          rw [hdi] at h
          exact h
        rw [Nat.add_zero, hv, List.getElem?_eq_getElem hlt2]
        simp
      | succ k =>
        rw [List.getElem?_cons_succ, List.getElem?_dropLast, drop_getElem?]
        by_cases hkb : i + (k + 1) < s.m_data.length - 1
        · have hcond : k < (s.m_data.drop (i + 1)).length - 1 := by
            simp only [List.length_drop]
            omega
          rw [if_pos hcond]
          have hidx : i + 1 + k = i + (k + 1) := by omega
          rw [hidx]
          unfold erase_at
          apply erase_data_other
          · rw [hdi]
            omega
          · exact hkb
        · have hcond : ¬ k < (s.m_data.drop (i + 1)).length - 1 := by
            simp only [List.length_drop]
            omega
          rw [if_neg hcond]
          exact List.getElem?_eq_none (by omega)
    rw [List.drop_eq_getElem_cons hi, hkey]
    apply List.Perm.cons
    have hnn : s.m_data.drop (i + 1) ≠ [] := by
      intro hcon
      have := List.drop_eq_nil_iff.mp hcon
      omega
    have hsplit : (s.m_data.drop (i + 1)).dropLast ++
        [(s.m_data.drop (i + 1)).getLast hnn] = s.m_data.drop (i + 1) :=
      List.dropLast_concat_getLast hnn
    have hlt1 : (s.m_data.drop (i + 1)).length - 1 <
        (s.m_data.drop (i + 1)).length := by
      simp only [List.length_drop]
      omega
    have hlast : (s.m_data.drop (i + 1)).getLast hnn =
        s.m_data.get ⟨s.m_data.length - 1, hlt2⟩ := by
      have hx : (s.m_data.drop (i + 1))[(s.m_data.drop (i + 1)).length - 1]? =
          s.m_data[s.m_data.length - 1]? := by
        rw [drop_getElem?]
        have h : i + 1 + ((s.m_data.drop (i + 1)).length - 1) =
            s.m_data.length - 1 := by
          simp only [List.length_drop]
          omega
        rw [h]
      have hsome : some ((s.m_data.drop (i + 1)).getLast hnn) =
          some (s.m_data.get ⟨s.m_data.length - 1, hlt2⟩) := by
        rw [List.getLast_eq_getElem, ← List.getElem?_eq_getElem hlt1, hx,
          List.getElem?_eq_getElem hlt2]
        simp
      exact Option.some.inj hsome
    obtain ⟨X, hX⟩ : ∃ X, X = (s.m_data.drop (i + 1)).dropLast := ⟨_, rfl⟩
    rw [← hX]
    rw [← hX] at hsplit
    rw [hlast] at hsplit
    rw [← hsplit]
    exact List.perm_append_singleton _ _

theorem length_filter_not_add {α : Type} (p : α → Bool) (l : List α) :
    (l.filter fun x => !p x).length + l.countP p = l.length := by
  induction l with
  | nil => rfl
  | cons a l ih =>
    by_cases h : p a = true
    · rw [@List.filter_cons_of_neg α (fun x => !p x) a l (by simp [h]),
        List.countP_cons_of_pos p l (by simpa using h)]
      simp only [List.length_cons]
      omega
    · have hf : p a = false := by
        cases hpa : p a
        · rfl
        · exact absurd hpa h
      rw [@List.filter_cons_of_pos α (fun x => !p x) a l (by simp [hf]),
        List.countP_cons_of_neg p l (by simp [hf])]
      simp only [List.length_cons]
      omega

theorem erase_if_go_perm {T : Type} (p : T → Bool) (fuel : Nat) :
    ∀ (s : State T) (i : Nat), s.m_data.length - i ≤ fuel → Inv s →
      (erase_if_go p s i).m_data.Perm
        (s.m_data.take i ++ (s.m_data.drop i).filter (fun x => !p x)) := by
  induction fuel with
  | zero =>
    intro s i hf hInvS
    rw [erase_if_go]
    split
    · omega
    · next h =>
      rw [List.drop_eq_nil_of_le (by omega), List.take_of_length_le (by omega)]
      simp
  | succ k ih =>
    intro s i hf hInvS
    rw [erase_if_go]
    split
    · next hlt =>
      split
      · next hp =>
        have hrec := ih (erase_at s i) i
          (by rw [erase_at_m_data_length]; omega) (Inv_erase_at hInvS hlt)
        refine hrec.trans ?_
        rw [erase_at_take hInvS hlt]
        refine List.Perm.append_left _ ?_
        have hdp := erase_at_drop_perm hInvS hlt
        have hfl := hdp.filter (fun x => !p x)
        have hneg : ¬ ((!p (s.m_data.get ⟨i, hlt⟩)) = true) := by
          rw [hp]
          simp
        rw [@List.filter_cons_of_neg T (fun x => !p x) (s.m_data.get ⟨i, hlt⟩)
          (List.drop i (erase_at s i).m_data) hneg] at hfl
        exact hfl.symm
      · next hp =>
        have hrec := ih s (i + 1) (by omega) hInvS
        refine hrec.trans ?_
        have hpx : p (s.m_data[i]) = false := by
          have hg : s.m_data.get ⟨i, hlt⟩ = s.m_data[i] := by simp
          rw [← hg]
          cases hpa : p (s.m_data.get ⟨i, hlt⟩)
          · rfl
          · exact absurd hpa hp
        have hpos : (!p (s.m_data[i])) = true := by
          rw [hpx]
          rfl
        have hL : s.m_data.take (i + 1) ++
              (s.m_data.drop (i + 1)).filter (fun x => !p x) =
            s.m_data.take i ++ (s.m_data.drop i).filter (fun x => !p x) := by
          rw [List.take_succ, List.getElem?_eq_getElem hlt,
            List.drop_eq_getElem_cons hlt,
            @List.filter_cons_of_pos T (fun x => !p x) (s.m_data[i])
              (List.drop (i + 1) s.m_data) hpos]
          rw [Option.toList_some, List.append_assoc, List.singleton_append]
        rw [hL]
    · next h =>
      rw [List.drop_eq_nil_of_le (by omega), List.take_of_length_le (by omega)]
      simp

theorem Inv_tables_recycle {T : Type} {s : State T} (hInv : Inv s)
    (hrec : s.m_data.length < s.m_metadata.length) (d : List T)
    (hdlen : d.length ≤ s.m_metadata.length) :
    Inv { m_data := d,
          m_metadata := s.m_metadata.set s.m_data.length
            ⟨(s.md s.m_data.length).rid, (s.md s.m_data.length).generation + 1⟩,
          m_indexes := s.m_indexes.set (s.md s.m_data.length).rid
            s.m_data.length } := by
  obtain ⟨h1, h2, h3, h4⟩ := hInv
  have hr1 := (h3 _ hrec).1
  have hr2 := (h3 _ hrec).2
  simp only [State.md, State.idx] at hr1 hr2 h3 h4
  simp only [Inv, State.md, State.idx, List.length_set]
  refine ⟨h1, hdlen, ?_, ?_⟩
  · intro p hp
    by_cases hpn : p = s.m_data.length
    · subst hpn
      rw [getD_set_same _ _ _ _ hrec]
      exact ⟨hr1, by rw [getD_set_same _ _ _ _ hr1]⟩
    · rw [getD_set_other _ _ _ _ _ (Ne.symm hpn)]
      have hp3 := h3 p hp
      have hne : (s.m_metadata.getD p ⟨0, 0⟩).rid ≠
          (s.m_metadata.getD s.m_data.length ⟨0, 0⟩).rid := by
        intro he
        have h : s.m_indexes.getD (s.m_metadata.getD p ⟨0, 0⟩).rid 0 =
            s.m_indexes.getD (s.m_metadata.getD s.m_data.length ⟨0, 0⟩).rid 0 := by
          rw [he]
        rw [hp3.2, hr2] at h
        exact hpn h
      refine ⟨hp3.1, ?_⟩
      rw [getD_set_other _ _ _ _ _ (Ne.symm hne)]
      exact hp3.2
  · intro i hi
    by_cases hir : i = (s.m_metadata.getD s.m_data.length ⟨0, 0⟩).rid
    · subst hir
      rw [getD_set_same _ _ _ _ hr1]
      exact ⟨hrec, by rw [getD_set_same _ _ _ _ hrec]⟩
    · rw [getD_set_other _ _ _ _ _ (fun he => hir he.symm)]
      have hi4 := h4 i hi
      have hne : s.m_indexes.getD i 0 ≠ s.m_data.length := by
        intro he
        have h : (s.m_metadata.getD (s.m_indexes.getD i 0) ⟨0, 0⟩).rid =
            (s.m_metadata.getD s.m_data.length ⟨0, 0⟩).rid := by
          rw [he]
        rw [hi4.2] at h
        exact hir h
      refine ⟨hi4.1, ?_⟩
      rw [getD_set_other _ _ _ _ _ (Ne.symm hne)]
      exact hi4.2

theorem Inv_tables_mint {T : Type} {s : State T} (hInv : Inv s)
    (hrec : ¬ s.m_data.length < s.m_metadata.length) (d : List T)
    (hdlen : d.length ≤ s.m_metadata.length + 1) :
    Inv { m_data := d,
          m_metadata := s.m_metadata ++ [⟨s.m_data.length, 0⟩],
          m_indexes := (s.m_indexes ++ [s.m_data.length]).set s.m_data.length
            s.m_data.length } := by
  obtain ⟨h1, h2, h3, h4⟩ := hInv
  have hlen : s.m_data.length = s.m_metadata.length :=
    Nat.le_antisymm h2 (Nat.not_lt.mp hrec)
  have hidxlen : s.m_indexes.length = s.m_data.length := by omega
  simp only [State.md, State.idx] at h3 h4
  simp only [Inv, State.md, State.idx, List.length_set, List.length_append,
    List.length_singleton]
  refine ⟨by omega, by omega, ?_, ?_⟩
  · intro p hp
    by_cases hpn : p = s.m_data.length
    · subst hpn
      rw [getD_append_at _ _ _ _ hlen]
      refine ⟨by show s.m_data.length < s.m_indexes.length + 1; omega, ?_⟩
      rw [getD_set_same _ _ _ _ (by simp; omega)]
    · have hp' : p < s.m_metadata.length := by omega
      rw [getD_append_left _ _ _ _ hp']
      have hp3 := h3 p hp'
      have hrlt : (s.m_metadata.getD p ⟨0, 0⟩).rid < s.m_indexes.length := hp3.1
      refine ⟨by omega, ?_⟩
      rw [getD_set_other _ _ _ _ _ (by omega)]
      rw [getD_append_left _ _ _ _ hrlt]
      exact hp3.2
  · intro i hi
    by_cases hin : i = s.m_data.length
    · subst hin
      rw [getD_set_same _ _ _ _ (by simp; omega)]
      refine ⟨by omega, ?_⟩
      rw [getD_append_at _ _ _ _ hlen]
    · have hi' : i < s.m_indexes.length := by omega
      rw [getD_set_other _ _ _ _ _ (fun he => hin he.symm)]
      rw [getD_append_left _ _ _ _ hi']
      have hi4 := h4 i hi'
      refine ⟨by omega, ?_⟩
      rw [getD_append_left _ _ _ _ hi4.1]
      exact hi4.2

/-- C1: after every sequence of public operations on a container built
by default construction, the structural invariant holds: a minted
identifier is live iff its indirection entry is below the data length;
every live position points back through the indirection table; and every
metadata position from the data length up to the metadata length is a
hole, that is, its reverse id is not a contained identifier and its
indirection entry points back at that very position, so holes occupy
exactly the suffix of the metadata table above the live region. -/
theorem C1_structural_invariant {T : Type} (ops : List (Op T)) :
    (∀ id, id < (run ops (init T)).m_indexes.length →
      (live (run ops (init T)) id ↔
        (run ops (init T)).idx id < (run ops (init T)).m_data.length)) ∧
    (∀ p, p < (run ops (init T)).m_data.length →
      (run ops (init T)).idx (((run ops (init T)).md p).rid) = p) ∧
    (∀ p, (run ops (init T)).m_data.length ≤ p →
      p < (run ops (init T)).m_metadata.length →
      contains (run ops (init T)) (((run ops (init T)).md p).rid) = false ∧
      (run ops (init T)).idx (((run ops (init T)).md p).rid) = p) := by
  have hInv := Inv_run ops (init T) (Inv_init T)
  refine ⟨?_, ?_, ?_⟩
  · intro id hid
    exact live_iff_of_Inv hInv hid
  · intro p hp
    exact hInv.idx_rid (Nat.lt_of_lt_of_le hp hInv.data_le)
  · intro p hge hlt
    have h1 := hInv.idx_rid hlt
    refine ⟨?_, h1⟩
    unfold contains
    rw [h1]
    simp only [Bool.and_eq_false_iff, decide_eq_false_iff_not]
    right
    omega

/-- C10: after every sequence of public operations from the empty
container, every minted identifier, live or erased, has an indirection
entry inside the metadata table, and the slot it points at carries
exactly that identifier as reverse id; hence index_of and generation on
an erased-but-minted identifier read the hole slot carrying that very
identifier rather than arbitrary data. -/
theorem C10_indirection_points_home {T : Type} (ops : List (Op T)) :
    ∀ id, id < (run ops (init T)).m_indexes.length →
      index_of (run ops (init T)) id < (run ops (init T)).m_metadata.length ∧
      ((run ops (init T)).md (index_of (run ops (init T)) id)).rid = id ∧
      generation (run ops (init T)) id =
        ((run ops (init T)).md (index_of (run ops (init T)) id)).generation := by
  have hInv := Inv_run ops (init T) (Inv_init T)
  intro id hid
  exact ⟨hInv.idx_lt hid, hInv.rid_idx hid, rfl⟩

theorem C10_witness :
    0 < (run [Op.push 10, Op.erase 0] (init Nat)).m_indexes.length ∧
    (index_of (run [Op.push 10, Op.erase 0] (init Nat)) 0 <
      (run [Op.push 10, Op.erase 0] (init Nat)).m_metadata.length ∧
     ((run [Op.push 10, Op.erase 0] (init Nat)).md
       (index_of (run [Op.push 10, Op.erase 0] (init Nat)) 0)).rid = 0 ∧
     generation (run [Op.push 10, Op.erase 0] (init Nat)) 0 =
       ((run [Op.push 10, Op.erase 0] (init Nat)).md
         (index_of (run [Op.push 10, Op.erase 0] (init Nat)) 0)).generation) :=
  ⟨by decide, C10_indirection_points_home [Op.push 10, Op.erase 0] 0 (by decide)⟩

/-- C4: the concrete scenario: pushing 10, 20 and 30 into an empty
container yields identifiers 0, 1, 2 in that order; after erase(0) the
size is 2, identifier 2 sits at position 0, identifier 1 stays at
position 1, contains(0) is false and the handle to 0 created before the
erase is invalid; pushing a fourth value recycles identifier 0, with
size 3 and index_of(0) equal to 2. -/
theorem C4_concrete_scenario :
    (push_back (init Nat) 10).1 = 0 ∧
    (push_back (push_back (init Nat) 10).2 20).1 = 1 ∧
    (push_back (push_back (push_back (init Nat) 10).2 20).2 30).1 = 2 ∧
    size demoErased = 2 ∧
    index_of demoErased 2 = 0 ∧
    index_of demoErased 1 = 1 ∧
    contains demoErased 0 = false ∧
    is_valid demoErased demoHandle.1 demoHandle.2 = false ∧
    demoPush.1 = 0 ∧
    size demoPush.2 = 3 ∧
    index_of demoPush.2 0 = 2 := by
  decide

/-- C6 counterexample: at the state reached by pushing three values,
erasing identifier 0 and pushing a fourth value, metadata position 2
stores generation 2; the public operation erase(2) swaps the tail slot
into position 2 and leaves generation 1 there, so the generation stored
at a fixed metadata position strictly decreases across a public
operation. -/
theorem C6_counterexample :
    (genDemo.md 2).generation = 2 ∧
    ((step genDemo (Op.erase 2)).md 2).generation = 1 ∧
    ¬ ((genDemo.md 2).generation ≤
        ((step genDemo (Op.erase 2)).md 2).generation) := by
  decide

/-- C6 amended: the generation counter is monotone per identifier, not
per metadata position: the value generation(id), read through the
indirection entry of a minted identifier, never decreases across any
public operation; erase(id) increments it by exactly one, and an
insertion that recycles id increments it by exactly one more. The
per-position counter is not monotone because erase swaps the metadata
entries at the victim and tail positions. -/
theorem C6_generation_per_identifier {T : Type} (s : State T) (op : Op T)
    (id : Nat) (v : T) (hInv : Inv s) (hid : id < s.m_indexes.length) :
    generation s id ≤ generation (step s op) id ∧
    (contains s id = true →
      generation (erase s id) id = generation s id + 1) ∧
    ((push_back s v).1 = id →
      generation (push_back s v).2 id = generation s id + 1) := by
  refine ⟨generation_le_step s op id hInv hid, ?_, ?_⟩
  · intro hc
    obtain ⟨hid2, hlive⟩ := (contains_iff s id).mp hc
    exact generation_erase_self hInv hid hlive
  · intro heq
    exact (generation_push_self hInv hid heq).1

theorem C6_witness :
    Inv genDemo ∧ 1 < genDemo.m_indexes.length ∧
    generation genDemo 1 ≤ generation (step genDemo Op.clear) 1 :=
  ⟨by unfold Inv; decide, by decide,
    (C6_generation_per_identifier genDemo Op.clear 1 9
      (by unfold Inv; decide) (by decide)).1⟩

/-- C9: after clear on any state reached from a valid state: the size is
zero; no identifier is contained; a handle issued by make_handle on a
minted identifier at any earlier state reports invalid; every slot of
the metadata table has its generation incremented exactly once; and the
metadata and indirection tables keep their sizes. -/
theorem C9_clear_all {T : Type} (s0 : State T) (ops : List (Op T)) (id0 : Nat)
    (hInv0 : Inv s0) (hid0 : id0 < s0.m_indexes.length) :
    size (clear (run ops s0)) = 0 ∧
    (∀ id, contains (clear (run ops s0)) id = false) ∧
    is_valid (clear (run ops s0)) (make_handle s0 id0).1
      (make_handle s0 id0).2 = false ∧
    (∀ p, p < (run ops s0).m_metadata.length →
      ((clear (run ops s0)).md p).generation =
        ((run ops s0).md p).generation + 1) ∧
    (clear (run ops s0)).m_metadata.length = (run ops s0).m_metadata.length ∧
    (clear (run ops s0)).m_indexes.length = (run ops s0).m_indexes.length := by
  have hInv := Inv_run ops s0 hInv0
  obtain ⟨hle, hid⟩ := generation_le_run ops s0 id0 hInv0 hid0
  refine ⟨rfl, ?_, ?_, ?_, by simp [clear], rfl⟩
  · intro id
    simp [contains, clear, State.idx]
  · have hgc : generation (clear (run ops s0)) id0 =
        generation (run ops s0) id0 + 1 := generation_clear hInv hid
    have hidc : id0 < (clear (run ops s0)).m_indexes.length := by
      simpa [clear] using hid
    have hxc : (clear (run ops s0)).idx id0 <
        (clear (run ops s0)).m_metadata.length := by
      have h := hInv.idx_lt hid
      simpa [clear, State.idx] using h
    have hfst : (make_handle s0 id0).1 = id0 := rfl
    have hmh : (make_handle s0 id0).2 = generation s0 id0 := rfl
    rw [hfst, hmh, is_valid_eq_decide _ _ _ hidc hxc, hgc]
    simp only [decide_eq_false_iff_not]
    omega
  · intro p hp
    simp only [clear, State.md]
    rw [getD_map_bump _ _ hp]

theorem C9_witness :
    Inv demo3 ∧ 0 < demo3.m_indexes.length ∧
    is_valid (clear (run [Op.push 5] demo3)) (make_handle demo3 0).1
      (make_handle demo3 0).2 = false :=
  ⟨by unfold Inv; decide, by decide,
    (C9_clear_all demo3 [Op.push 5] 0 (by unfold Inv; decide)
      (by decide)).2.2.1⟩

/-- C5: erasing a live non-tail identifier moves exactly one element,
the prior tail, into the erased position (all other data entries keep
their values); the erased identifier now reports the old tail position;
the prior tail identifier is the only other identifier whose reported
position changes (to the erased position), and every other minted
identifier reports an unchanged position. -/
theorem C5_swap_erase_frame {T : Type} (s : State T) (id : Nat)
    (hInv : Inv s) (hc : contains s id = true)
    (hnt : index_of s id ≠ s.m_data.length - 1) :
    tail_id s ≠ id ∧
    index_of (erase s id) id = s.m_data.length - 1 ∧
    index_of (erase s id) (tail_id s) = index_of s id ∧
    index_of (erase s id) (tail_id s) ≠ index_of s (tail_id s) ∧
    (∀ j, j < s.m_indexes.length → j ≠ id → j ≠ tail_id s →
      index_of (erase s id) j = index_of s j) ∧
    (erase s id).m_data[index_of s id]? = s.m_data[s.m_data.length - 1]? ∧
    (∀ p, p < (erase s id).m_data.length → p ≠ index_of s id →
      (erase s id).m_data[p]? = s.m_data[p]?) := by
  obtain ⟨hid, hlive⟩ := (contains_iff s id).mp hc
  have hn : 0 < s.m_data.length := by omega
  have hntx : s.idx id ≠ s.m_data.length - 1 := hnt
  have htne : tail_id s ≠ id := by
    intro he
    apply hntx
    rw [← he] at hnt ⊢
    exact idx_tail_id hInv hn
  refine ⟨htne, erase_idx_self hInv hid hlive, ?_, ?_, ?_, ?_, ?_⟩
  · exact erase_idx_tail hInv hid hlive
  · have h1 : index_of (erase s id) (tail_id s) = s.idx id :=
      erase_idx_tail hInv hid hlive
    have h2 : index_of s (tail_id s) = s.m_data.length - 1 :=
      idx_tail_id hInv hn
    rw [h1, h2]
    exact hntx
  · intro j hj hj1 hj2
    exact erase_idx_other hj1 hj2
  · exact erase_data_victim hlive hntx
  · intro p hp hp1
    rw [erase_m_data_length] at hp
    exact erase_data_other hp1 hp

theorem C5_witness :
    Inv genDemo ∧ contains genDemo 1 = true ∧
    index_of genDemo 1 ≠ genDemo.m_data.length - 1 ∧
    tail_id genDemo ≠ 1 ∧
    index_of (erase genDemo 1) 1 = genDemo.m_data.length - 1 :=
  ⟨by unfold Inv; decide, by decide, by decide,
    (C5_swap_erase_frame genDemo 1 (by unfold Inv; decide) (by decide)
      (by decide)).1,
    (C5_swap_erase_frame genDemo 1 (by unfold Inv; decide) (by decide)
      (by decide)).2.1⟩

/-- C2: the value pushed for an identifier is returned by lookup on that
identifier after any interleaving of further insertions and erasures of
other identifiers, and the identifier stays contained. -/
theorem C2_lookup_roundtrip {T : Type} (s : State T) (v : T)
    (tail : List (Op T)) (hInv : Inv s)
    (htail : ∀ op ∈ tail, (∃ w, op = Op.push w) ∨
      ∃ j, j ≠ (push_back s v).1 ∧ op = Op.erase j) :
    lookup (run tail (push_back s v).2) (push_back s v).1 = some v ∧
    contains (run tail (push_back s v).2) (push_back s v).1 = true := by
  obtain ⟨hc0, hl0⟩ := lookup_push_fresh s v hInv
  have h := lookup_run_other tail (push_back s v).2 (push_back s v).1 v
    (Inv_push s v hInv) hc0 hl0 htail
  exact ⟨h.2, h.1⟩

theorem C2_witness :
    Inv demo3 ∧
    lookup (run [Op.push 60, Op.erase 1] (push_back demo3 50).2)
      (push_back demo3 50).1 = some 50 := by
  have hInv : Inv demo3 := by unfold Inv; decide
  have htail : ∀ op ∈ [Op.push 60, Op.erase 1],
      (∃ w, op = Op.push w) ∨
      ∃ j, j ≠ (push_back demo3 50).1 ∧ op = Op.erase j := by
    intro op hop
    simp only [List.mem_cons, List.not_mem_nil, or_false] at hop
    rcases hop with rfl | rfl
    · exact Or.inl ⟨60, rfl⟩
    · exact Or.inr ⟨1, by decide, rfl⟩
  exact ⟨hInv,
    (C2_lookup_roundtrip demo3 50 [Op.push 60, Op.erase 1] hInv htail).1⟩

/-- C3: a handle created by make_handle on a live identifier id reports
invalid after erase(id); and when, after any further guarded public
operations, an insertion recycles the numeric value id, a handle made
for the new element reports valid while the old handle still reports
invalid, the two handles carrying different generation values. -/
theorem C3_handle_invalidation {T : Type} (s : State T) (id : Nat) (v : T)
    (tail : List (Op T)) (hInv : Inv s) (hc : contains s id = true) :
    is_valid (erase s id) (make_handle s id).1 (make_handle s id).2 = false ∧
    ((push_back (run tail (erase s id)) v).1 = id →
      is_valid (push_back (run tail (erase s id)) v).2
        (make_handle (push_back (run tail (erase s id)) v).2 id).1
        (make_handle (push_back (run tail (erase s id)) v).2 id).2 = true ∧
      is_valid (push_back (run tail (erase s id)) v).2
        (make_handle s id).1 (make_handle s id).2 = false ∧
      (make_handle (push_back (run tail (erase s id)) v).2 id).2 ≠
        (make_handle s id).2) := by
  obtain ⟨hid, hlive⟩ := (contains_iff s id).mp hc
  have hInv1 : Inv (erase s id) := Inv_erase hInv hid hlive
  have hid1 : id < (erase s id).m_indexes.length := by
    rw [erase_m_indexes_length]
    exact hid
  have hg1 : generation (erase s id) id = generation s id + 1 :=
    generation_erase_self hInv hid hlive
  have hfst : (make_handle s id).1 = id := rfl
  have hmh : (make_handle s id).2 = generation s id := rfl
  constructor
  · rw [hfst, hmh, is_valid_eq_decide _ _ _ hid1 (hInv1.idx_lt hid1), hg1]
    simp only [decide_eq_false_iff_not]
    omega
  · intro hrec
    obtain ⟨hle, hid2⟩ := generation_le_run tail (erase s id) id hInv1 hid1
    rw [hg1] at hle
    have hInv2 : Inv (run tail (erase s id)) := Inv_run _ _ hInv1
    obtain ⟨hg3, hc3⟩ := generation_push_self hInv2 hid2 hrec
    obtain ⟨hid3, hlive3⟩ := (contains_iff _ id).mp hc3
    have hInv3 : Inv (push_back (run tail (erase s id)) v).2 :=
      Inv_push _ v hInv2
    have hx3 : (push_back (run tail (erase s id)) v).2.idx id <
        (push_back (run tail (erase s id)) v).2.m_metadata.length :=
      hInv3.idx_lt hid3
    have hfst3 : (make_handle (push_back (run tail (erase s id)) v).2 id).1
        = id := rfl
    have hmh3 : (make_handle (push_back (run tail (erase s id)) v).2 id).2
        = generation (push_back (run tail (erase s id)) v).2 id := rfl
    refine ⟨?_, ?_, ?_⟩
    · rw [hfst3, hmh3, is_valid_eq_decide _ _ _ hid3 hx3]
      simp
    · rw [hfst, hmh, is_valid_eq_decide _ _ _ hid3 hx3, hg3]
      simp only [decide_eq_false_iff_not]
      omega
    · rw [hmh3, hmh, hg3]
      omega

theorem C3_witness :
    Inv demo3 ∧ contains demo3 0 = true ∧
    is_valid (erase demo3 0) (make_handle demo3 0).1
      (make_handle demo3 0).2 = false :=
  ⟨by unfold Inv; decide, by decide,
    (C3_handle_invalidation demo3 0 99 [] (by unfold Inv; decide)
      (by decide)).1⟩

/-- C7 counterexample: insertion into a one-element container with full
tables mints a fresh identifier, and the data table growth happens after
get_free_slot has already appended to the metadata and indirection
tables; when that data growth fails, the exception leaves the container
with a metadata table of length 2 instead of the pre-operation length 1,
so the container is not left exactly in its pre-operation state. -/
theorem C7_counterexample :
    isErr (push_back_alloc allocDemo 8 true true false) = true ∧
    (errState (push_back_alloc allocDemo 8 true true false)
      allocDemo).m_metadata.length = 2 ∧
    allocDemo.m_metadata.length = 1 := by
  decide

/-- C7 amended: on the fresh-mint path the source reserves the
indirection and metadata tables before appending to either, so a failed
reserve leaves the container exactly in its pre-operation state; but the
data-table growth inside m_data.push_back runs after get_free_slot has
mutated the metadata or indirection tables, so on a data growth failure
the container is not in its pre-operation state in general. In every
failure case the three tables still satisfy the structural invariant,
the data table is unchanged, and next_id is unchanged, so no identifier
is consumed and the container remains fully usable. -/
theorem C7_alloc_failure {T : Type} (s : State T) (v : T)
    (idx_ok md_ok data_ok : Bool) (hInv : Inv s) :
    (¬ s.m_data.length < s.m_metadata.length →
      (idx_ok = false ∨ (idx_ok = true ∧ md_ok = false)) →
      push_back_alloc s v idx_ok md_ok data_ok = Except.error s) ∧
    (∀ e, push_back_alloc s v idx_ok md_ok data_ok = Except.error e →
      Inv e ∧ e.m_data = s.m_data ∧ next_id e = next_id s) := by
  constructor
  · intro hmint hfail
    unfold push_back_alloc
    rw [if_neg hmint]
    rcases hfail with hf | ⟨hf1, hf2⟩
    · rw [hf]
      simp
    · rw [hf1, hf2]
      simp
  · intro e he
    unfold push_back_alloc at he
    by_cases hrec : s.m_data.length < s.m_metadata.length
    · rw [if_pos hrec] at he
      cases data_ok with
      | true => simp at he
      | false =>
        simp only [Bool.false_eq_true, if_false, Except.error.injEq] at he
        subst he
        refine ⟨Inv_tables_recycle hInv hrec s.m_data hInv.data_le, rfl, ?_⟩
        unfold next_id
        simp only [State.md, List.length_set]
        rw [if_pos hrec, if_pos hrec, getD_set_same _ _ _ _ hrec]
    · rw [if_neg hrec] at he
      cases idx_ok with
      | false =>
        simp only [if_pos, Except.error.injEq] at he
        subst he
        exact ⟨hInv, rfl, rfl⟩
      | true =>
        cases md_ok with
        | false =>
          simp at he
          subst he
          exact ⟨hInv, rfl, rfl⟩
        | true =>
          cases data_ok with
          | true => simp at he
          | false =>
            simp only [Bool.true_eq_false, if_false, Bool.false_eq_true,
              Except.error.injEq] at he
            subst he
            have h2 := hInv.data_le
            have hlen : s.m_data.length = s.m_metadata.length :=
              Nat.le_antisymm h2 (Nat.not_lt.mp hrec)
            refine ⟨Inv_tables_mint hInv hrec s.m_data (by omega), rfl, ?_⟩
            unfold next_id
            simp only [State.md, List.length_append, List.length_singleton]
            rw [if_pos (by omega), if_neg hrec, getD_append_at _ _ _ _ hlen]

theorem C7_witness :
    Inv allocDemo ∧
    (Inv (errState (push_back_alloc allocDemo 8 true true false) allocDemo) ∧
     (errState (push_back_alloc allocDemo 8 true true false)
       allocDemo).m_data = allocDemo.m_data ∧
     next_id (errState (push_back_alloc allocDemo 8 true true false) allocDemo)
       = next_id allocDemo) :=
  ⟨by unfold Inv; decide,
    (C7_alloc_failure allocDemo 8 true true false (by unfold Inv; decide)).2
      (errState (push_back_alloc allocDemo 8 true true false) allocDemo)
      (by rfl)⟩

/-- C8: for every container satisfying the structural invariant and
every predicate, erase_if removes exactly the elements satisfying the
predicate and keeps exactly those not satisfying it, each exactly once:
the surviving data is a permutation of the filter of the old data by the
negated predicate (the scan re-examines the current index after a
removal, so the element swapped in is never skipped); and the free
function erase_if returns the number of removed elements, the count of
elements satisfying the predicate. -/
theorem C8_erase_if_filter {T : Type} (s : State T) (p : T → Bool)
    (hInv : Inv s) :
    (erase_if s p).m_data.Perm (s.m_data.filter fun x => !p x) ∧
    (erase_if_count s p).2 = s.m_data.countP p := by
  have h := erase_if_go_perm p s.m_data.length s 0 (by omega) hInv
  simp only [List.take_zero, List.drop_zero, List.nil_append] at h
  constructor
  · exact h
  · have hlen : (erase_if s p).m_data.length =
        (s.m_data.filter fun x => !p x).length := h.length_eq
    have hcount := length_filter_not_add p s.m_data
    unfold erase_if_count
    simp only
    omega

theorem C8_witness :
    Inv demo3 ∧
    ((erase_if demo3 fun x => x % 20 == 10).m_data.Perm
      (demo3.m_data.filter fun x => !(x % 20 == 10)) ∧
     (erase_if_count demo3 fun x => x % 20 == 10).2 =
       demo3.m_data.countP fun x => x % 20 == 10) :=
  ⟨by unfold Inv; decide,
    C8_erase_if_filter demo3 (fun x => x % 20 == 10) (by unfold Inv; decide)⟩

end SIV
